import Mathlib

/-!
Shallow embedding of `src/python/brute_force_homomorphism_counter.py`.

The script defines two functions:

* `verify(G, H, f)` walks the edges of `G` and checks that the image
  `(f[edge[0]], f[edge[1]])` of each edge lies in `H`, breaking at the first
  failing edge.  Tuple indexing out of range raises an `IndexError`; we model
  that by returning `none`.
* `solve(G, H, n, m)` materialises `itertools.product(range(m), repeat=n)`,
  runs `verify` on every candidate assignment and counts the successes.  An
  uncaught `IndexError` from `verify` aborts the whole call, modelled by
  `solve` returning `none`.

Edge sets are modelled as lists of pairs of naturals, in iteration order;
candidate assignments are lists of naturals (position = source vertex).
-/

namespace BruteForceHom

/-- The two tuple lookups `f[edge[0]]`, `f[edge[1]]` performed for one edge of
`G` inside `verify`; `none` models the `IndexError` raised when either
endpoint is out of range of the assignment tuple `f`. -/
def edgeLookup (f : List Nat) (e : Nat × Nat) : Option (Nat × Nat) :=
  match f[e.1]?, f[e.2]? with
  | some a, some b => some (a, b)
  | _, _ => none

/-- `verify(G, H, f)` from the source: for each edge of `G`, test whether the
image pair is a member of `H` and break with `some false` at the first failure;
`none` models an `IndexError` on an out-of-range tuple index. -/
def verify : List (Nat × Nat) → List (Nat × Nat) → List Nat → Option Bool
  | [], _, _ => some true
  | e :: rest, H, f =>
    match edgeLookup f e with
    | some p => if p ∈ H then verify rest H f else some false
    | none => none

/-- `list(product(range(m), repeat=n))` from the source: all length-`n` tuples
over `{0, …, m-1}`, first coordinate varying slowest. -/
def assignments (m : Nat) : Nat → List (List Nat)
  | 0 => [[]]
  | n + 1 => (List.range m).flatMap (fun i => (assignments m n).map (fun t => i :: t))

/-- One iteration of the counting loop of `solve`: an error (`none`) from a
previous iteration or from `verify` propagates, otherwise the accumulator is
incremented exactly when `verify` returned `True`. -/
def solveStep (G H : List (Nat × Nat)) (acc : Option Nat) (f : List Nat) : Option Nat :=
  match acc, verify G H f with
  | some c, some true => some (c + 1)
  | some c, some false => some c
  | _, _ => none

/-- `solve(G, H, n, m)` from the source: fold the counting loop over all
candidate assignments, starting from `cnt = 0`. -/
def solve (G H : List (Nat × Nat)) (n m : Nat) : Option Nat :=
  (assignments m n).foldl (solveStep G H) (some 0)

/-- The specification predicate: a total function `f : {0..n-1} → {0..m-1}`
is a homomorphism when the image of every edge of `G` (with endpoints read as
elements of `Fin n`) is an edge of `H`. -/
def IsHom (G H : List (Nat × Nat)) {n m : Nat} (f : Fin n → Fin m) : Prop :=
  ∀ u v : Fin n, ((u : Nat), (v : Nat)) ∈ G → (((f u) : Nat), ((f v) : Nat)) ∈ H

instance instDecidableIsHom (G H : List (Nat × Nat)) {n m : Nat} (f : Fin n → Fin m) :
    Decidable (IsHom G H f) := by
  unfold IsHom
  infer_instance

/-- The number the specification talks about: how many total functions
`f : {0..n-1} → {0..m-1}` are homomorphisms from `G` to `H`. -/
def homCountSpec (G H : List (Nat × Nat)) (n m : Nat) : Nat :=
  ((Finset.univ : Finset (Fin n → Fin m)).filter (fun f => IsHom G H f)).card

/-- The tuple representation of a total function: position `i` holds `f i`. -/
def toTuple {n m : Nat} (f : Fin n → Fin m) : List Nat :=
  List.ofFn (fun i => ((f i) : Nat))

/-- The boolean test `verify` effectively performs for a single edge, once the
two lookups are known to be in range. -/
def edgeOk (H : List (Nat × Nat)) (f : List Nat) (e : Nat × Nat) : Bool :=
  match edgeLookup f e with
  | some p => decide (p ∈ H)
  | none => false

/-- Splitting a function on `Fin (n+1)` into its value at `0` and its tail. -/
def consEquiv (n m : Nat) : Fin m × (Fin n → Fin m) ≃ (Fin (n + 1) → Fin m) where
  toFun p := Fin.cons p.1 p.2
  invFun f := (f 0, fun i => f i.succ)
  left_inv p := by
    cases p with
    | mk a g => simp
  right_inv f := by
    funext i
    refine Fin.cases ?_ ?_ i <;> simp

/-- The source graph of the commented-out example in the script (concrete
scenario 2 of the spec). -/
def G7 : List (Nat × Nat) := [(0, 1), (1, 0), (1, 3), (3, 1), (1, 2), (2, 1), (2, 4), (4, 2)]

/-- The target graph of the commented-out example in the script: the complete
loopless graph on five vertices, all ordered pairs with distinct endpoints. -/
def H7 : List (Nat × Nat) :=
  [(0, 1), (0, 2), (0, 3), (0, 4),
   (1, 0), (1, 2), (1, 3), (1, 4),
   (2, 0), (2, 1), (2, 3), (2, 4),
   (3, 0), (3, 1), (3, 2), (3, 4),
   (4, 0), (4, 1), (4, 2), (4, 3)]

/-- A cheap equivalent of the single-edge test of `verify` against `H7`: for
in-range values, membership in the complete loopless graph is just
distinctness of the two endpoints' images. -/
def distinctOk (t : List Nat) (e : Nat × Nat) : Bool :=
  decide (t.getD e.1 0 ≠ t.getD e.2 0)

/-- A cheap equivalent of `verify G7 H7` on in-range assignment tuples. -/
def quickVerify (t : List Nat) : Bool := G7.all (distinctOk t)

theorem mem_assignments {m : Nat} : ∀ {n : Nat} {l : List Nat},
    l ∈ assignments m n ↔ l.length = n ∧ ∀ x ∈ l, x < m := by
  intro n
  induction n with
  | zero =>
    intro l
    cases l <;> simp [assignments]
  | succ k ih =>
    intro l
    cases l with
    | nil => simp [assignments, List.mem_flatMap]
    | cons a t =>
      simp only [assignments, List.mem_flatMap, List.mem_map, List.mem_range]
      constructor
      · rintro ⟨i, hi, u, hu, huv⟩
        obtain ⟨h1, h2⟩ := ih.mp hu
        cases huv
        refine ⟨by simp [h1], ?_⟩
        intro x hx
        rcases List.mem_cons.mp hx with hx | hx
        · exact hx ▸ hi
        · exact h2 x hx
      · rintro ⟨hlen, hmem⟩
        refine ⟨a, hmem a (List.mem_cons_self a t), t, ih.mpr ⟨by simpa using hlen, ?_⟩, rfl⟩
        intro x hx
        exact hmem x (List.mem_cons_of_mem a hx)

theorem length_assignments {m : Nat} : ∀ (n : Nat), (assignments m n).length = m ^ n := by
  intro n
  induction n with
  | zero => simp [assignments]
  | succ k ih =>
    simp only [assignments, List.length_flatMap, List.map_map]
    have hconst : (List.range m).map (List.length ∘ fun i => (assignments m k).map (fun t => i :: t))
        = List.replicate m (m ^ k) := by
      refine List.eq_replicate_iff.mpr ⟨by simp, ?_⟩
      intro b hb
      simp only [List.mem_map] at hb
      obtain ⟨i, _, hi⟩ := hb
      simpa [ih] using hi.symm
    rw [hconst, List.sum_replicate, smul_eq_mul, pow_succ, Nat.mul_comm]

theorem assignments_ne_nil {m n : Nat} (h : 0 < m ∨ n = 0) : assignments m n ≠ [] := by
  have hlen : (assignments m n).length = m ^ n := length_assignments n
  have hpos : 0 < m ^ n := by
    rcases h with h | h
    · exact Nat.pos_pow_of_pos n h
    · simp [h]
  intro hnil
  rw [hnil] at hlen
  simp at hlen
  omega

theorem edgeLookup_of_lt {f : List Nat} {e : Nat × Nat}
    (h1 : e.1 < f.length) (h2 : e.2 < f.length) :
    edgeLookup f e = some (f.getD e.1 0, f.getD e.2 0) := by
  simp [edgeLookup, List.getElem?_eq_getElem, h1, h2, List.getD_eq_getElem?_getD]

theorem edgeLookup_mem {f : List Nat} {e : Nat × Nat} {p : Nat × Nat}
    (h : edgeLookup f e = some p) : p.1 ∈ f ∧ p.2 ∈ f := by
  unfold edgeLookup at h
  cases h1 : f[e.1]? with
  | none => rw [h1] at h; exact absurd h (by simp)
  | some a =>
    cases h2 : f[e.2]? with
    | none => rw [h1, h2] at h; exact absurd h (by simp)
    | some b =>
      rw [h1, h2] at h
      cases h
      exact ⟨List.getElem?_mem h1, List.getElem?_mem h2⟩

theorem verify_eq_all {G H : List (Nat × Nat)} {f : List Nat}
    (h : ∀ e ∈ G, e.1 < f.length ∧ e.2 < f.length) :
    verify G H f = some (G.all (edgeOk H f)) := by
  induction G with
  | nil => rfl
  | cons e rest ih =>
    obtain ⟨h1, h2⟩ := h e (List.mem_cons_self e rest)
    have hlk := edgeLookup_of_lt h1 h2
    have hrest := ih (fun e he => h e (List.mem_cons_of_mem _ he))
    have hv : verify (e :: rest) H f
        = if (f.getD e.1 0, f.getD e.2 0) ∈ H then verify rest H f else some false := by
      simp only [verify, hlk]
    have hok : edgeOk H f e = decide ((f.getD e.1 0, f.getD e.2 0) ∈ H) := by
      simp only [edgeOk, hlk]
    rw [hv, List.all_cons, hok, hrest]
    by_cases hmem : (f.getD e.1 0, f.getD e.2 0) ∈ H
    · rw [if_pos hmem, decide_eq_true hmem, Bool.true_and]
    · rw [if_neg hmem, decide_eq_false hmem, Bool.false_and]

theorem verify_none_of_oob {f : List Nat} {e : Nat × Nat}
    (h : f.length ≤ e.1 ∨ f.length ≤ e.2) (G H : List (Nat × Nat)) :
    verify (e :: G) H f = none := by
  have : edgeLookup f e = none := by
    unfold edgeLookup
    rcases h with h | h
    · rw [List.getElem?_eq_none h]
    · rw [List.getElem?_eq_none h]
      cases f[e.1]? <;> rfl
  simp [verify, this]

theorem foldl_solveStep_none (G H : List (Nat × Nat)) (L : List (List Nat)) :
    L.foldl (solveStep G H) none = none := by
  induction L with
  | nil => rfl
  | cons f rest ih =>
    have hstep : solveStep G H none f = none := by
      unfold solveStep
      cases verify G H f <;> rfl
    simp [List.foldl_cons, hstep, ih]

theorem foldl_solveStep_some (G H : List (Nat × Nat)) :
    ∀ (L : List (List Nat)) (c : Nat), (∀ f ∈ L, verify G H f ≠ none) →
    L.foldl (solveStep G H) (some c)
      = some (c + L.countP (fun f => verify G H f == some true)) := by
  intro L
  induction L with
  | nil => intro c _; simp
  | cons f rest ih =>
    intro c h
    have hf := h f (List.mem_cons_self f rest)
    have hrest : ∀ g ∈ rest, verify G H g ≠ none :=
      fun g hg => h g (List.mem_cons_of_mem _ hg)
    cases hv : verify G H f with
    | none => exact absurd hv hf
    | some b =>
      cases b with
      | false =>
        have hstep : solveStep G H (some c) f = some c := by
          unfold solveStep; rw [hv]
        simp [List.foldl_cons, hstep, ih c hrest, List.countP_cons, hv]
      | true =>
        have hstep : solveStep G H (some c) f = some (c + 1) := by
          unfold solveStep; rw [hv]
        simp [List.foldl_cons, hstep, ih (c + 1) hrest, List.countP_cons, hv]
        omega

theorem solve_eq_countP (G H : List (Nat × Nat)) (n m : Nat)
    (h : ∀ f ∈ assignments m n, verify G H f ≠ none) :
    solve G H n m = some ((assignments m n).countP (fun f => verify G H f == some true)) := by
  simpa [solve] using foldl_solveStep_some G H (assignments m n) 0 h

theorem countP_flatMap {α β : Type} (l : List α) (g : α → List β) (p : β → Bool) :
    (l.flatMap g).countP p = (l.map (fun a => (g a).countP p)).sum := by
  induction l with
  | nil => rfl
  | cons a rest ih =>
    rw [List.flatMap_cons, List.countP_append, List.map_cons, List.sum_cons, ih]

theorem sum_map_range (m : Nat) (F : Nat → Nat) :
    ((List.range m).map F).sum = ∑ i ∈ Finset.range m, F i := by
  induction m with
  | zero => simp
  | succ k ih =>
    rw [List.range_succ, List.map_append, List.sum_append, Finset.sum_range_succ, ih]
    simp

theorem length_toTuple {n m : Nat} (f : Fin n → Fin m) : (toTuple f).length = n := by
  simp [toTuple]

theorem toTuple_cons {k m : Nat} (i : Fin m) (g : Fin k → Fin m) :
    toTuple (Fin.cons i g) = (i : Nat) :: toTuple g := by
  unfold toTuple
  rw [List.ofFn_succ]
  simp

theorem countP_assignments_eq_card {m : Nat} : ∀ {n : Nat} (p : List Nat → Bool)
    (P : (Fin n → Fin m) → Prop) [DecidablePred P],
    (∀ f : Fin n → Fin m, p (toTuple f) = decide (P f)) →
    (assignments m n).countP p
      = ((Finset.univ : Finset (Fin n → Fin m)).filter (fun f => P f)).card := by
  intro n
  induction n with
  | zero =>
    intro p P inst hpc
    have huniv : (Finset.univ : Finset (Fin 0 → Fin m)) = {fun i => i.elim0} := by
      apply Finset.eq_singleton_iff_unique_mem.mpr
      refine ⟨Finset.mem_univ _, ?_⟩
      intro f _
      funext i
      exact i.elim0
    have hp0 : p [] = decide (P (fun i => i.elim0)) := by
      have := hpc (fun i => i.elim0)
      simpa [toTuple] using this
    rw [huniv, Finset.filter_singleton]
    by_cases hP : P (fun i => i.elim0)
    · rw [if_pos hP]
      have hpt : p [] = true := by rw [hp0, decide_eq_true hP]
      simp [assignments, List.countP_cons, hpt]
    · rw [if_neg hP]
      have hpf : p [] = false := by rw [hp0, decide_eq_false hP]
      simp [assignments, List.countP_cons, hpf]
  | succ k ih =>
    intro p P inst hpc
    have hL : (assignments m (k + 1)).countP p
        = ∑ i : Fin m, (assignments m k).countP (fun t => p ((i : Nat) :: t)) := by
      show ((List.range m).flatMap fun i => (assignments m k).map (fun t => i :: t)).countP p = _
      rw [countP_flatMap]
      have hFun : (fun a : Nat => ((assignments m k).map (fun t => a :: t)).countP p)
          = fun a : Nat => (assignments m k).countP (fun t => p (a :: t)) := by
        funext a
        rw [List.countP_map]
        rfl
      rw [hFun, sum_map_range, ← Fin.sum_univ_eq_sum_range]
    have hR : ((Finset.univ : Finset (Fin (k + 1) → Fin m)).filter (fun f => P f)).card
        = ∑ i : Fin m,
          ((Finset.univ : Finset (Fin k → Fin m)).filter (fun g => P (Fin.cons i g))).card := by
      rw [Finset.card_filter]
      rw [← Equiv.sum_comp (consEquiv k m) (fun f => if P f then 1 else 0)]
      rw [Fintype.sum_prod_type]
      refine Finset.sum_congr rfl ?_
      intro i _
      rw [Finset.card_filter]
      refine Finset.sum_congr rfl ?_
      intro g _
      rfl
    rw [hL, hR]
    refine Finset.sum_congr rfl ?_
    intro i _
    letI : DecidablePred (fun g : Fin k → Fin m => P (Fin.cons i g)) :=
      fun g => inst (Fin.cons i g)
    exact ih (fun t => p ((i : Nat) :: t)) (fun g => P (Fin.cons i g))
      (fun g => by
        show p ((i : Nat) :: toTuple g) = decide (P (Fin.cons i g))
        rw [← toTuple_cons i g]
        exact hpc (Fin.cons i g))

theorem edgeOk_toTuple {H : List (Nat × Nat)} {n m : Nat} (f : Fin n → Fin m)
    {e : Nat × Nat} (h1 : e.1 < n) (h2 : e.2 < n) :
    edgeOk H (toTuple f) e
      = decide (((f ⟨e.1, h1⟩ : Nat), (f ⟨e.2, h2⟩ : Nat)) ∈ H) := by
  have hlk : edgeLookup (toTuple f) e
      = some ((f ⟨e.1, h1⟩ : Nat), (f ⟨e.2, h2⟩ : Nat)) := by
    unfold edgeLookup toTuple
    rw [List.getElem?_ofFn, List.getElem?_ofFn]
    simp [List.ofFnNthVal, h1, h2]
  simp [edgeOk, hlk]

theorem verify_ne_none {G H : List (Nat × Nat)} {n m : Nat}
    (hG : ∀ e ∈ G, e.1 < n ∧ e.2 < n) {f : List Nat} (hf : f ∈ assignments m n) :
    verify G H f ≠ none := by
  obtain ⟨hlen, -⟩ := mem_assignments.mp hf
  rw [verify_eq_all (fun e he => by rw [hlen]; exact hG e he)]
  simp

theorem all_edgeOk_toTuple {G H : List (Nat × Nat)} {n m : Nat}
    (hG : ∀ e ∈ G, e.1 < n ∧ e.2 < n) (f : Fin n → Fin m) :
    G.all (edgeOk H (toTuple f)) = decide (IsHom G H f) := by
  by_cases hh : IsHom G H f
  · rw [decide_eq_true hh, List.all_eq_true]
    intro e he
    obtain ⟨h1, h2⟩ := hG e he
    rw [edgeOk_toTuple f h1 h2]
    apply decide_eq_true
    apply hh ⟨e.1, h1⟩ ⟨e.2, h2⟩
    simpa using he
  · rw [decide_eq_false hh]
    by_contra hall
    apply hh
    intro u v huv
    have hall2 : G.all (edgeOk H (toTuple f)) = true := by
      cases hb : G.all (edgeOk H (toTuple f))
      · exact absurd hb hall
      · rfl
    have hone := List.all_eq_true.mp hall2 (u.val, v.val) huv
    rw [edgeOk_toTuple f u.isLt v.isLt] at hone
    have hmem := of_decide_eq_true hone
    simpa using hmem

theorem solve_eq_homCountSpec (G H : List (Nat × Nat)) (n m : Nat)
    (hG : ∀ e ∈ G, e.1 < n ∧ e.2 < n) :
    solve G H n m = some (homCountSpec G H n m) := by
  rw [solve_eq_countP G H n m (fun f hf => verify_ne_none hG hf)]
  congr 1
  unfold homCountSpec
  apply countP_assignments_eq_card
  intro f
  have hb : ∀ e ∈ G, e.1 < (toTuple f).length ∧ e.2 < (toTuple f).length := by
    intro e he
    rw [length_toTuple]
    exact hG e he
  rw [verify_eq_all hb, all_edgeOk_toTuple hG f]
  cases hd : decide (IsHom G H f) <;> rfl

theorem homCountSpec_le (G H : List (Nat × Nat)) (n m : Nat) :
    homCountSpec G H n m ≤ m ^ n := by
  unfold homCountSpec
  calc ((Finset.univ : Finset (Fin n → Fin m)).filter (fun f => IsHom G H f)).card
      ≤ (Finset.univ : Finset (Fin n → Fin m)).card := Finset.card_filter_le _ _
    _ = m ^ n := by rw [Finset.card_univ, Fintype.card_fun, Fintype.card_fin, Fintype.card_fin]

theorem homCountSpec_mono {G H H2 : List (Nat × Nat)} {n m : Nat}
    (hsub : ∀ e ∈ H, e ∈ H2) :
    homCountSpec G H n m ≤ homCountSpec G H2 n m := by
  unfold homCountSpec
  apply Finset.card_le_card
  apply Finset.monotone_filter_right
  intro f hf u v huv
  exact hsub _ (hf u v huv)

theorem getD_mem_of_lt {f : List Nat} {i : Nat} (h : i < f.length) : f.getD i 0 ∈ f := by
  rw [List.getD_eq_getElem?_getD, List.getElem?_eq_getElem h]
  simp [List.getElem_mem h]

theorem verify_complete {G H : List (Nat × Nat)} {n m : Nat}
    (hG : ∀ e ∈ G, e.1 < n ∧ e.2 < n)
    (hH : ∀ a b : Nat, a < m → b < m → (a, b) ∈ H)
    {f : List Nat} (hf : f ∈ assignments m n) :
    verify G H f = some true := by
  obtain ⟨hlen, hval⟩ := mem_assignments.mp hf
  rw [verify_eq_all (fun e he => by rw [hlen]; exact hG e he)]
  congr 1
  rw [List.all_eq_true]
  intro e he
  obtain ⟨h1, h2⟩ := hG e he
  rw [← hlen] at h1 h2
  have hlk := edgeLookup_of_lt h1 h2
  have hok : edgeOk H f e = decide ((f.getD e.1 0, f.getD e.2 0) ∈ H) := by
    simp only [edgeOk, hlk]
  rw [hok]
  exact decide_eq_true (hH _ _ (hval _ (getD_mem_of_lt h1)) (hval _ (getD_mem_of_lt h2)))

theorem verify_filter_eq {m : Nat} {H : List (Nat × Nat)} {f : List Nat}
    (hval : ∀ x ∈ f, x < m) :
    ∀ G : List (Nat × Nat),
      verify G (H.filter (fun e => decide (e.1 < m) && decide (e.2 < m))) f = verify G H f := by
  intro G
  induction G with
  | nil => rfl
  | cons e rest ih =>
    cases hlk : edgeLookup f e with
    | none => simp [verify, hlk]
    | some p =>
      obtain ⟨hp1, hp2⟩ := edgeLookup_mem hlk
      have hmemiff : p ∈ H.filter (fun e => decide (e.1 < m) && decide (e.2 < m)) ↔ p ∈ H := by
        rw [List.mem_filter]
        constructor
        · exact fun h => h.1
        · intro h
          refine ⟨h, ?_⟩
          simp [hval p.1 hp1, hval p.2 hp2]
      by_cases hmem : p ∈ H
      · have hmf := hmemiff.mpr hmem
        simp only [verify, hlk]
        rw [if_pos hmem, if_pos hmf, ih]
      · have hmf : p ∉ H.filter (fun e => decide (e.1 < m) && decide (e.2 < m)) :=
          fun hc => hmem (hmemiff.mp hc)
        simp only [verify, hlk]
        rw [if_neg hmem, if_neg hmf]

theorem foldl_solveStep_congr (G H H2 : List (Nat × Nat)) :
    ∀ (L : List (List Nat)), (∀ f ∈ L, verify G H f = verify G H2 f) →
    ∀ acc : Option Nat, L.foldl (solveStep G H) acc = L.foldl (solveStep G H2) acc := by
  intro L
  induction L with
  | nil => intro _ acc; rfl
  | cons f rest ih =>
    intro h acc
    have hf := h f (List.mem_cons_self f rest)
    have hstep : solveStep G H acc f = solveStep G H2 acc f := by
      unfold solveStep
      rw [hf]
    rw [List.foldl_cons, List.foldl_cons, hstep]
    exact ih (fun g hg => h g (List.mem_cons_of_mem _ hg)) _

theorem countP_assignments_succ (m n : Nat) (p : List Nat → Bool) :
    (assignments m (n + 1)).countP p
      = ((List.range m).map (fun i => (assignments m n).countP (fun t => p (i :: t)))).sum := by
  show ((List.range m).flatMap fun i => (assignments m n).map (fun t => i :: t)).countP p = _
  rw [countP_flatMap]
  have hFun : (fun i : Nat => ((assignments m n).map (fun t => i :: t)).countP p)
      = fun i : Nat => (assignments m n).countP (fun t => p (i :: t)) := by
    funext i
    rw [List.countP_map]
    rfl
  rw [hFun]

/-- Claim C1: for every `n ≥ 0`, `m ≥ 0`, every edge set `G` over `{0..n-1}`
and every edge set `H` over `{0..m-1}`, `solve(G, H, n, m)` returns exactly
the number of total functions `f : {0..n-1} → {0..m-1}` such that for every
edge `(u, v)` of `G` the pair `(f u, f v)` is an edge of `H`. -/
theorem claim_C1_solve_counts_homomorphisms (G H : List (Nat × Nat)) (n m : Nat)
    (hG : ∀ e ∈ G, e.1 < n ∧ e.2 < n) (_hH : ∀ e ∈ H, e.1 < m ∧ e.2 < m) :
    solve G H n m = some (homCountSpec G H n m) :=
  solve_eq_homCountSpec G H n m hG

/-- Witness for C1 at a concrete input: one directed edge mapped into a
two-cycle; the count of homomorphisms is delivered by `solve`. -/
theorem claim_C1_witness :
    solve [(0, 1)] [(0, 1), (1, 0)] 2 2 = some (homCountSpec [(0, 1)] [(0, 1), (1, 0)] 2 2) :=
  claim_C1_solve_counts_homomorphisms [(0, 1)] [(0, 1), (1, 0)] 2 2 (by decide) (by decide)

/-- Counterexample to Claim C2: an out-of-range edge in `H` does not make
`solve` fail (it returns `some 1` on `G = {}`, `H = {(5,5)}`, `n = 0`,
`m = 1`, although `5 ≥ m`), and an out-of-range source edge in `G` need not
make it fail either when an earlier edge already breaks the verification
(`G = {(0,0),(5,0)}`, `H = {}`, `n = 1`, `m = 1` returns `some 0` although
`5 ≥ n`). -/
theorem claim_C2_counterexample :
    solve [] [(5, 5)] 0 1 = some 1 ∧ solve [(0, 0), (5, 0)] [] 1 1 = some 0 :=
  ⟨rfl, rfl⟩

/-- Claim C2 as amended: `solve` fails with an out-of-range condition
(an uncaught IndexError, `none` here) when the first edge of `G` in iteration
order references a vertex `≥ n` and at least one candidate assignment exists
(`m > 0` or `n = 0`); out-of-range edges of `H` never cause a failure. -/
theorem claim_C2_amended_oob_source_fails (e : Nat × Nat) (G H : List (Nat × Nat)) (n m : Nat)
    (he : n ≤ e.1 ∨ n ≤ e.2) (hne : 0 < m ∨ n = 0) :
    solve (e :: G) H n m = none := by
  obtain ⟨f, rest, hfr⟩ := List.exists_cons_of_ne_nil (assignments_ne_nil hne)
  have hf : f ∈ assignments m n := by
    rw [hfr]
    exact List.mem_cons_self f rest
  obtain ⟨hlen, -⟩ := mem_assignments.mp hf
  have he2 : f.length ≤ e.1 ∨ f.length ≤ e.2 := by
    rw [hlen]
    exact he
  have hv : verify (e :: G) H f = none := verify_none_of_oob he2 G H
  unfold solve
  rw [hfr, List.foldl_cons]
  have hstep : solveStep (e :: G) H (some 0) f = none := by
    unfold solveStep
    rw [hv]
  rw [hstep, foldl_solveStep_none]

/-- Witness for the amended C2: a single edge `(5, 5)` with `n = 1`, `m = 1`
makes `solve` raise. -/
theorem claim_C2_amended_witness : solve [(5, 5)] [] 1 1 = none :=
  claim_C2_amended_oob_source_fails (5, 5) [] [] 1 1 (Or.inl (by decide)) (Or.inl (by decide))

/-- Claim C3: for every valid input (edge endpoints of `G` in `[0, n)` and of
`H` in `[0, m)`), `solve(G, H, n, m)` returns an integer in `[0, m ^ n]`. -/
theorem claim_C3_result_in_range (G H : List (Nat × Nat)) (n m : Nat)
    (hG : ∀ e ∈ G, e.1 < n ∧ e.2 < n) (_hH : ∀ e ∈ H, e.1 < m ∧ e.2 < m) :
    ∃ c : Nat, solve G H n m = some c ∧ c ≤ m ^ n :=
  ⟨homCountSpec G H n m, solve_eq_homCountSpec G H n m hG, homCountSpec_le G H n m⟩

/-- Witness for C3 at a concrete input. -/
theorem claim_C3_witness :
    ∃ c : Nat, solve [(0, 1)] [(0, 1), (1, 0)] 2 2 = some c ∧ c ≤ 2 ^ 2 :=
  claim_C3_result_in_range [(0, 1)] [(0, 1), (1, 0)] 2 2 (by decide) (by decide)

/-- Claim C4: when `n = 0` and `G` is empty, `solve(G, H, 0, m)` returns `1`
for every `H` and every `m ≥ 0`, including `m = 0`. -/
theorem claim_C4_empty_source_counts_one (H : List (Nat × Nat)) (m : Nat) :
    solve [] H 0 m = some 1 :=
  rfl

/-- Claim C5: when `m = 0` and `n > 0` with `G` empty, `solve(G, H, n, 0)`
returns `0` for every `H`. -/
theorem claim_C5_empty_target_counts_zero (H : List (Nat × Nat)) (n : Nat) (hn : 0 < n) :
    solve [] H n 0 = some 0 := by
  obtain ⟨k, rfl⟩ : ∃ k, n = k + 1 := ⟨n - 1, by omega⟩
  have hnil : assignments 0 (k + 1) = [] := by
    show (List.range 0).flatMap (fun i => (assignments 0 k).map (fun t => i :: t)) = []
    simp
  unfold solve
  rw [hnil]
  rfl

/-- Witness for C5 at `n = 1`. -/
theorem claim_C5_witness : solve [] [] 1 0 = some 0 :=
  claim_C5_empty_target_counts_zero [] 1 (by decide)

/-- Claim C6: if `H` contains all pairs `(i, j)` with `i, j ∈ [0, m)`
(complete reflexive relation), then `solve(G, H, n, m)` returns `m ^ n` for
every `G` over `[0, n)` with `n, m > 0`. -/
theorem claim_C6_complete_reflexive_target (G H : List (Nat × Nat)) (n m : Nat)
    (_hn : 0 < n) (_hm : 0 < m)
    (hG : ∀ e ∈ G, e.1 < n ∧ e.2 < n)
    (hH : ∀ a b : Nat, a < m → b < m → (a, b) ∈ H) :
    solve G H n m = some (m ^ n) := by
  rw [solve_eq_countP G H n m (fun f hf => verify_ne_none hG hf)]
  congr 1
  have hall : ∀ f ∈ assignments m n, (verify G H f == some true) = true := by
    intro f hf
    rw [verify_complete hG hH hf]
    rfl
  rw [List.countP_eq_length.mpr hall]
  exact length_assignments n

/-- Witness for C6: one edge into the complete reflexive relation on two
vertices; all `2 ^ 2` assignments are homomorphisms. -/
theorem claim_C6_witness :
    solve [(0, 1)] [(0, 0), (0, 1), (1, 0), (1, 1)] 2 2 = some (2 ^ 2) :=
  claim_C6_complete_reflexive_target [(0, 1)] [(0, 0), (0, 1), (1, 0), (1, 1)] 2 2
    (by decide) (by decide) (by decide)
    (by
      intro a b ha hb
      interval_cases a <;> interval_cases b <;> simp)

theorem countP_assignments_five (p : List Nat → Bool) :
    (assignments 5 5).countP p
      = ((List.range 5).map (fun i => ((List.range 5).map
          (fun j => (assignments 5 3).countP (fun t => p (i :: j :: t)))).sum)).sum := by
  have h2 : (fun i : Nat => (assignments 5 4).countP (fun t => p (i :: t)))
      = fun i : Nat => ((List.range 5).map
        (fun j => (assignments 5 3).countP (fun t => p (i :: j :: t)))).sum := by
    funext i
    exact countP_assignments_succ 5 3 (fun t => p (i :: t))
  exact (countP_assignments_succ 5 4 p).trans (by rw [h2])

theorem mem_H7_iff {a b : Nat} (ha : a < 5) (hb : b < 5) : ((a, b) ∈ H7) ↔ a ≠ b := by
  interval_cases a <;> interval_cases b <;> decide

theorem all_congr_mem {α : Type} {p q : α → Bool} :
    ∀ {l : List α}, (∀ a ∈ l, p a = q a) → l.all p = l.all q := by
  intro l
  induction l with
  | nil => intro _; rfl
  | cons a rest ih =>
    intro h
    rw [List.all_cons, List.all_cons, h a (List.mem_cons_self a rest),
      ih (fun b hb => h b (List.mem_cons_of_mem a hb))]

theorem verify_G7_eq_quick {t : List Nat} (ht : t ∈ assignments 5 5) :
    (verify G7 H7 t == some true) = quickVerify t := by
  obtain ⟨hlen, hval⟩ := mem_assignments.mp ht
  have hG : ∀ e ∈ G7, e.1 < t.length ∧ e.2 < t.length := by
    rw [hlen]
    decide
  rw [verify_eq_all hG]
  have hall : G7.all (edgeOk H7 t) = quickVerify t := by
    unfold quickVerify
    apply all_congr_mem
    intro e he
    obtain ⟨h1, h2⟩ := hG e he
    have hlk := edgeLookup_of_lt h1 h2
    have hok : edgeOk H7 t e = decide ((t.getD e.1 0, t.getD e.2 0) ∈ H7) := by
      simp only [edgeOk, hlk]
    rw [hok]
    unfold distinctOk
    exact decide_eq_decide.mpr
      (mem_H7_iff (hval _ (getD_mem_of_lt h1)) (hval _ (getD_mem_of_lt h2)))
  rw [hall]
  cases quickVerify t <;> rfl

set_option maxHeartbeats 1600000 in
theorem countP_quickVerify : (assignments 5 5).countP quickVerify = 1280 := by
  rw [countP_assignments_five quickVerify]
  set_option maxRecDepth 100000 in decide

/-- Claim C7: on the concrete input `G7` (eight edges over five vertices) and
`H7` (the complete loopless graph on five vertices), `solve` returns
`5 * 4 ^ 4 = 1280`. -/
theorem claim_C7_concrete_scenario : solve G7 H7 5 5 = some 1280 := by
  rw [solve_eq_countP G7 H7 5 5 (fun f hf => verify_ne_none (by decide) hf)]
  have hc : (assignments 5 5).countP (fun f => verify G7 H7 f == some true)
      = (assignments 5 5).countP quickVerify :=
    List.countP_congr (fun f hf => by rw [verify_G7_eq_quick hf])
  rw [hc, countP_quickVerify]

/-- Claim C8: `solve` is monotone in the target edge set: enlarging `H`
cannot decrease the count. -/
theorem claim_C8_monotone_in_target (G H H2 : List (Nat × Nat)) (n m : Nat)
    (hG : ∀ e ∈ G, e.1 < n ∧ e.2 < n) (hsub : ∀ e ∈ H, e ∈ H2) :
    ∃ c c2 : Nat, solve G H n m = some c ∧ solve G H2 n m = some c2 ∧ c ≤ c2 :=
  ⟨homCountSpec G H n m, homCountSpec G H2 n m,
    solve_eq_homCountSpec G H n m hG, solve_eq_homCountSpec G H2 n m hG,
    homCountSpec_mono hsub⟩

/-- Witness for C8 at a concrete input. -/
theorem claim_C8_witness :
    ∃ c c2 : Nat, solve [(0, 1)] [(0, 1)] 2 2 = some c
      ∧ solve [(0, 1)] [(0, 1), (1, 0)] 2 2 = some c2 ∧ c ≤ c2 :=
  claim_C8_monotone_in_target [(0, 1)] [(0, 1)] [(0, 1), (1, 0)] 2 2 (by decide) (by decide)

/-- Claim C9: edges of `H` with an endpoint outside `[0, m)` never affect the
result: `solve` is unchanged when `H` is restricted to its in-range pairs, so
out-of-range target edges are silently ignored rather than failing. -/
theorem claim_C9_oob_target_edges_ignored (G H : List (Nat × Nat)) (n m : Nat) :
    solve G H n m
      = solve G (H.filter (fun e => decide (e.1 < m) && decide (e.2 < m))) n m := by
  unfold solve
  exact (foldl_solveStep_congr G (H.filter (fun e => decide (e.1 < m) && decide (e.2 < m))) H
    (assignments m n)
    (fun f hf => verify_filter_eq (mem_assignments.mp hf).2 G) (some 0)).symm

/-- Claim C10: under the precondition that every edge endpoint of `G` lies in
`[0, n)`, every candidate assignment has length `n` with values in `[0, m)`,
and `solve` is total (never raises). -/
theorem claim_C10_no_index_error (G H : List (Nat × Nat)) (n m : Nat)
    (hG : ∀ e ∈ G, e.1 < n ∧ e.2 < n) :
    (∀ f ∈ assignments m n, f.length = n ∧ ∀ x ∈ f, x < m)
      ∧ ∃ c : Nat, solve G H n m = some c :=
  ⟨fun _ hf => mem_assignments.mp hf,
    ⟨homCountSpec G H n m, solve_eq_homCountSpec G H n m hG⟩⟩

/-- Witness for C10 at a concrete input. -/
theorem claim_C10_witness :
    (∀ f ∈ assignments 2 2, f.length = 2 ∧ ∀ x ∈ f, x < 2)
      ∧ ∃ c : Nat, solve [(0, 1)] [] 2 2 = some c :=
  claim_C10_no_index_error [(0, 1)] [] 2 2 (by decide)

end BruteForceHom
